import Mathlib

/-!
# Verification of the tantivy segment manager and block codec

Shallow embedding of `src/indexer/segment_manager.rs` and
`src/compression/compression_simd.rs`, together with the collaborator
types (`SegmentRegister`, `SegmentEntry`, `SegmentMeta`, the simdcomp
packing routines) that the repository links against but whose sources are
not part of this crate; those are modelled from the specification.
-/

namespace Tantivy

/-! ## Block codec

The codec of `compression_simd.rs` delegates the byte-level work to the
external C `simdcomp` routines (`compress_sorted`, `uncompress_sorted`,
`compress_unsorted`, `uncompress_unsorted`).  Those routines are modelled
from the spec: one bit-width header byte followed by every value (or
delta) packed at that bit width, least-significant bit first. -/

/-- Modelled from the spec: `NUM_DOCS_PER_BLOCK` is the compile-time block
width `B` (the spec gives 128, the value used by the crate). The constant
itself lives outside the two source files of this repository. -/
def NUM_DOCS_PER_BLOCK : Nat := 128

/-- `COMPRESSED_BLOCK_MAX_SIZE` from `compression_simd.rs` line 3:
`NUM_DOCS_PER_BLOCK * 4 + 1`. -/
def COMPRESSED_BLOCK_MAX_SIZE : Nat := NUM_DOCS_PER_BLOCK * 4 + 1

/-- The value denoted by a little-endian list of bits. -/
def bitsValue : List Bool → Nat
  | [] => 0
  | b :: bs => (if b then 1 else 0) + 2 * bitsValue bs

/-- The `w` low bits of `x`, least significant first. -/
def valBits (w : Nat) (x : Nat) : List Bool :=
  (List.range w).map x.testBit

/-- Pack every value of the list at bit width `w`, concatenated. -/
def packBits (w : Nat) (vals : List Nat) : List Bool :=
  (vals.map (valBits w)).flatten

/-- Unpack `n` values of bit width `w` from a bit stream. -/
def unpackBits (w : Nat) : Nat → List Bool → List Nat
  | 0, _ => []
  | n + 1, bits => bitsValue (bits.take w) :: unpackBits w n (bits.drop w)

/-- Group a bit stream into bytes of 8 bits, the last byte padded with
zero bits. -/
def bitsToBytes : List Bool → List Nat
  | [] => []
  | b :: bs => bitsValue ((b :: bs).take 8) :: bitsToBytes ((b :: bs).drop 8)
  termination_by bits => bits.length
  decreasing_by simp [List.length_drop]; omega

/-- The bit stream of a byte list, 8 bits per byte, LSB first. -/
def bytesToBits (bytes : List Nat) : List Bool :=
  (bytes.map (valBits 8)).flatten

/-- Maximum of a list of naturals (0 for the empty list). -/
def maxList (l : List Nat) : Nat := l.foldr max 0

/-- Successive differences: `deltas prev [v₁, v₂, ...] = [v₁ - prev, v₂ - v₁, ...]`. -/
def deltas : Nat → List Nat → List Nat
  | _, [] => []
  | prev, v :: vs => (v - prev) :: deltas v vs

/-- Prefix sums undoing `deltas`. -/
def undeltas : Nat → List Nat → List Nat
  | _, [] => []
  | prev, d :: ds => (prev + d) :: undeltas (prev + d) ds

/-- Modelled from the spec: the C `compress_sorted` routine of the
`simdcomp` library (not in this repository's sources).  It delta-encodes
the non-decreasing block against `offset`, stores the minimal bit width
of the maximum delta in one header byte and then the deltas packed at
that width. -/
def compress_sorted (vals : List Nat) (offset : Nat) : List Nat :=
  let ds := deltas offset vals
  let b := Nat.size (maxList ds)
  b :: bitsToBytes (packBits b ds)

/-- Modelled from the spec: the C `uncompress_sorted` routine.  Reads the
bit-width header byte, unpacks `NUM_DOCS_PER_BLOCK` deltas and
prefix-sums them starting from `offset`; returns the decoded block
together with the unconsumed remainder of the input. -/
def uncompress_sorted (compressed : List Nat) (offset : Nat) :
    List Nat × List Nat :=
  match compressed with
  | [] => ([], [])
  | b :: rest =>
    let numBytes := (NUM_DOCS_PER_BLOCK * b + 7) / 8
    let ds := unpackBits b NUM_DOCS_PER_BLOCK (bytesToBits (rest.take numBytes))
    (undeltas offset ds, rest.drop numBytes)

/-- Modelled from the spec: the C `compress_unsorted` routine — one
header byte holding the minimal bit width of the block's maximum value,
then the raw values packed at that width. -/
def compress_unsorted (vals : List Nat) : List Nat :=
  let b := Nat.size (maxList vals)
  b :: bitsToBytes (packBits b vals)

/-- `BlockEncoder::compress_block_sorted` returns the prefix
`&self.output[..compressed_size]` of its fixed buffer; its length is the
size reported by the packing routine. -/
def compress_block_sorted_len (vals : List Nat) (offset : Nat) : Nat :=
  (compress_sorted vals offset).length

/-- `BlockEncoder::compress_block_unsorted`'s output length. -/
def compress_block_unsorted_len (vals : List Nat) : Nat :=
  (compress_unsorted vals).length

/-! ## Segment data model

`SegmentId`, `SegmentMeta`, `SegmentEntry`, `SegmentState` and
`SegmentRegister` are collaborators of `segment_manager.rs` whose sources
are not part of this repository; they are modelled from the spec
(§3, §4.2, §6). -/

/-- Modelled from the spec: a segment identifier is an opaque, totally
ordered value; we use `Nat`. -/
abbrev SegmentId := Nat

/-- Modelled from the spec: an immutable metadata record carrying the
segment's identifier and the file paths of its on-disk footprint (the
`list_files()` capability required of metadata, §6). -/
structure SegmentMeta where
  id : SegmentId
  files : List String
deriving DecidableEq

/-- `SegmentMeta::list_files`. -/
def SegmentMeta.list_files (m : SegmentMeta) : List String := m.files

/-- Modelled from the spec: `SegmentState` is `Ready` or `InMerge` (§3). -/
inductive SegmentState where
  | Ready
  | InMerge
deriving DecidableEq

/-- Modelled from the spec: a segment entry wraps one metadata with its
current state (§3). -/
structure SegmentEntry where
  meta : SegmentMeta
  state : SegmentState
deriving DecidableEq

/-- `SegmentEntry::segment_id`. -/
def SegmentEntry.segment_id (e : SegmentEntry) : SegmentId := e.meta.id

/-- Modelled from the spec: `SegmentEntry::new` builds a fresh `Ready`
entry (§4.3: commit "builds a fresh `Ready` entry"). -/
def SegmentEntry.new (m : SegmentMeta) : SegmentEntry := ⟨m, .Ready⟩

/-- `SegmentEntry::set_state`. -/
def SegmentEntry.set_state (e : SegmentEntry) (st : SegmentState) : SegmentEntry :=
  ⟨e.meta, st⟩

/-- Modelled from the spec (§4.2): a segment register is an
insertion-ordered collection of entries keyed by segment identifier. -/
def SegmentRegister := List SegmentEntry

instance : DecidableEq SegmentRegister := by
  unfold SegmentRegister; infer_instance

namespace SegmentRegister

/-- Modelled from the spec: `segment_entry(id)` looks the identifier up. -/
def segment_entry (r : SegmentRegister) (id : SegmentId) : Option SegmentEntry :=
  List.find? (fun e => e.meta.id == id) r

/-- Membership of an identifier. -/
def contains (r : SegmentRegister) (id : SegmentId) : Bool :=
  (r.segment_entry id).isSome

/-- Modelled from the spec: `contains_all(ids)` is true iff every id is
present. -/
def contains_all (r : SegmentRegister) (ids : List SegmentId) : Bool :=
  ids.all r.contains

/-- Modelled from the spec: `add_segment_entry` inserts or replaces the
entry for that segment's identifier. -/
def add_segment_entry (r : SegmentRegister) (e : SegmentEntry) : SegmentRegister :=
  (List.filter (fun e2 => e2.meta.id != e.meta.id) r) ++ [e]

/-- Modelled from the spec: `remove_segment` deletes the entry. -/
def remove_segment (r : SegmentRegister) (id : SegmentId) : SegmentRegister :=
  List.filter (fun e => e.meta.id != id) r

/-- Modelled from the spec: `start_merge(id)` transitions the entry's
state to `InMerge`. -/
def start_merge (r : SegmentRegister) (id : SegmentId) : SegmentRegister :=
  List.map (fun e => if e.meta.id == id then ⟨e.meta, .InMerge⟩ else e) r

/-- `segment_ids()`. -/
def segment_ids (r : SegmentRegister) : List SegmentId :=
  List.map (fun e => e.meta.id) r

/-- `segment_entries()`. -/
def segment_entries (r : SegmentRegister) : List SegmentEntry := r

/-- `segment_metas()`. -/
def segment_metas (r : SegmentRegister) : List SegmentMeta :=
  List.map SegmentEntry.meta r

/-- `get_segments()`. -/
def get_segments (r : SegmentRegister) : List SegmentMeta := r.segment_metas

/-- Modelled from the spec: `new(metas)` bulk-constructs one `Ready`
entry per metadata. -/
def new (metas : List SegmentMeta) : SegmentRegister :=
  metas.map SegmentEntry.new

/-- Modelled from the spec: `clear()` empties the register. -/
def clear : SegmentRegister := []

end SegmentRegister

/-- The `SegmentRegisters` struct of `segment_manager.rs`: the
uncommitted and committed registers plus the writing set (a `HashSet`,
modelled as a duplicate-free list). -/
structure SegmentRegisters where
  uncommitted : SegmentRegister
  committed : SegmentRegister
  writing : List SegmentId
deriving DecidableEq

/-- `HashSet::insert`, on the list model of the writing set. -/
def writingInsert (id : SegmentId) (w : List SegmentId) : List SegmentId :=
  if id ∈ w then w else id :: w

/-- `HashSet::remove`, on the list model of the writing set. -/
def writingErase (id : SegmentId) (w : List SegmentId) : List SegmentId :=
  w.filter (fun i => i != id)

/-- The `Default` state of the manager: both registers empty, no writing
segment. -/
def SegmentRegisters.default : SegmentRegisters :=
  ⟨SegmentRegister.clear, SegmentRegister.clear, []⟩

namespace SegmentManager

/-- `SegmentManager::from_segments`. -/
def from_segments (segment_metas : List SegmentMeta) : SegmentRegisters :=
  ⟨SegmentRegister.clear, SegmentRegister.new segment_metas, []⟩

/-- `SegmentManager::segment_entry`: committed register first, then
uncommitted. -/
def segment_entry (s : SegmentRegisters) (id : SegmentId) : Option SegmentEntry :=
  match s.committed.segment_entry id with
  | some e => some e
  | none => s.uncommitted.segment_entry id

/-- `SegmentManager::segment_state`. -/
def segment_state (s : SegmentRegisters) (id : SegmentId) : Option SegmentState :=
  (segment_entry s id).map SegmentEntry.state

/-- `SegmentManager::segment_entries`: uncommitted entries followed by
committed entries. -/
def segment_entries (s : SegmentRegisters) : List SegmentEntry :=
  s.uncommitted.segment_entries ++ s.committed.segment_entries

/-- `SegmentManager::rollback`: returns the uncommitted identifiers and
the state with the uncommitted register cleared. -/
def rollback (s : SegmentRegisters) : List SegmentId × SegmentRegisters :=
  (s.uncommitted.segment_ids, { s with uncommitted := SegmentRegister.clear })

/-- The closure inside `SegmentManager::commit`: a fresh `Ready` entry
for the metadata, overridden by the segment's prior state when
`segment_state` knows it. -/
def commit_entry (s : SegmentRegisters) (segment_meta : SegmentMeta) : SegmentEntry :=
  match segment_state s segment_meta.id with
  | some st => (SegmentEntry.new segment_meta).set_state st
  | none => SegmentEntry.new segment_meta

/-- `SegmentManager::commit`: builds one fresh `Ready` entry per incoming
metadata, overridden by the segment's prior state when `segment_state`
knows it, then clears both registers and repopulates the committed one. -/
def commit (s : SegmentRegisters) (segment_metas : List SegmentMeta) : SegmentRegisters :=
  let committed_segment_entries := segment_metas.map (commit_entry s)
  { s with
    committed := committed_segment_entries.foldl SegmentRegister.add_segment_entry
      SegmentRegister.clear,
    uncommitted := SegmentRegister.clear }

/-- `SegmentManager::start_merge`. -/
def start_merge (s : SegmentRegisters) (segment_ids : List SegmentId) : SegmentRegisters :=
  if s.uncommitted.contains_all segment_ids then
    { s with uncommitted := segment_ids.foldl SegmentRegister.start_merge s.uncommitted }
  else if s.committed.contains_all segment_ids then
    { s with committed := segment_ids.foldl SegmentRegister.start_merge s.committed }
  else s

/-- `SegmentManager::write_segment`. -/
def write_segment (s : SegmentRegisters) (segment_id : SegmentId) : SegmentRegisters :=
  { s with writing := writingInsert segment_id s.writing }

/-- `SegmentManager::add_segment`. -/
def add_segment (s : SegmentRegisters) (segment_entry : SegmentEntry) : SegmentRegisters :=
  { s with
    writing := writingErase segment_entry.segment_id s.writing,
    uncommitted := s.uncommitted.add_segment_entry segment_entry }

/-- `SegmentManager::end_merge`. -/
def end_merge (s : SegmentRegisters) (merged_segment_metas : List SegmentMeta)
    (merged_segment_entry : SegmentEntry) : SegmentRegisters :=
  let merged_segment_ids := merged_segment_metas.map SegmentMeta.id
  if s.uncommitted.contains_all merged_segment_ids then
    { s with uncommitted :=
        (merged_segment_ids.foldl SegmentRegister.remove_segment
          s.uncommitted).add_segment_entry merged_segment_entry }
  else if s.committed.contains_all merged_segment_ids then
    { s with committed :=
        (merged_segment_ids.foldl SegmentRegister.remove_segment
          s.committed).add_segment_entry merged_segment_entry }
  else s

/-- `SegmentManager::committed_segment_metas`. -/
def committed_segment_metas (s : SegmentRegisters) : List SegmentMeta :=
  s.committed.segment_metas

/-- Modelled from the spec: `META_FILEPATH`, the fixed root metadata file
path always present in `list_files()` output (§6). -/
def META_FILEPATH : String := "meta.json"

/-- Modelled from the spec: `SegmentMeta::new(id)` builds a fresh
metadata for an in-flight writing segment; the file paths it implies are
supplied by the storage layer, abstracted as the parameter `nf`. -/
def SegmentMeta.new (nf : SegmentId → List String) (id : SegmentId) : SegmentMeta :=
  ⟨id, nf id⟩

/-- `SegmentManager::list_files`: starts from `META_FILEPATH` and extends
with the files of every committed meta, every uncommitted meta and a
fresh meta per writing identifier. -/
def list_files (nf : SegmentId → List String) (s : SegmentRegisters) : Finset String :=
  (s.committed.get_segments ++ s.uncommitted.get_segments
      ++ s.writing.map (SegmentMeta.new nf)).foldl
    (fun files m => files ∪ m.list_files.toFinset) {META_FILEPATH}

end SegmentManager

/-- The manager's mutating operations, as one alphabet for quantifying
over operation sequences. -/
inductive Op where
  | write_segment (id : SegmentId)
  | add_segment (e : SegmentEntry)
  | commit (metas : List SegmentMeta)
  | rollback
  | start_merge (ids : List SegmentId)
  | end_merge (metas : List SegmentMeta) (e : SegmentEntry)

/-- Apply one manager operation to a state. -/
def applyOp (s : SegmentRegisters) : Op → SegmentRegisters
  | .write_segment id => SegmentManager.write_segment s id
  | .add_segment e => SegmentManager.add_segment s e
  | .commit metas => SegmentManager.commit s metas
  | .rollback => (SegmentManager.rollback s).2
  | .start_merge ids => SegmentManager.start_merge s ids
  | .end_merge metas e => SegmentManager.end_merge s metas e

/-- Run a sequence of manager operations. -/
def runOps (init : SegmentRegisters) (ops : List Op) : SegmentRegisters :=
  ops.foldl applyOp init

/-- The exclusivity invariant: every segment identifier belongs to at
most one of the committed register, the uncommitted register and the
writing set. -/
def Exclusive (s : SegmentRegisters) : Prop :=
  (∀ id ∈ s.committed.segment_ids,
      id ∉ s.uncommitted.segment_ids ∧ id ∉ s.writing) ∧
  (∀ id ∈ s.uncommitted.segment_ids, id ∉ s.writing)

instance (s : SegmentRegisters) : Decidable (Exclusive s) := by
  unfold Exclusive; infer_instance

/-- Freshness side conditions under which one operation preserves the
exclusivity invariant: the identifiers an operation inserts must not
already belong to a component the operation does not clear. -/
def opPrecond (s : SegmentRegisters) : Op → Prop
  | .write_segment id =>
      id ∉ s.committed.segment_ids ∧ id ∉ s.uncommitted.segment_ids
  | .add_segment e => e.meta.id ∉ s.committed.segment_ids
  | .commit metas => ∀ m ∈ metas, m.id ∉ s.writing
  | .rollback => True
  | .start_merge _ => True
  | .end_merge metas e =>
      e.meta.id ∉ s.writing ∧
      (e.meta.id ∈ s.committed.segment_ids → e.meta.id ∈ metas.map SegmentMeta.id) ∧
      (e.meta.id ∈ s.uncommitted.segment_ids → e.meta.id ∈ metas.map SegmentMeta.id)

instance instDecidableOpPrecond (s : SegmentRegisters) :
    (op : Op) → Decidable (opPrecond s op)
  | .write_segment id => by unfold opPrecond; infer_instance
  | .add_segment e => by unfold opPrecond; infer_instance
  | .commit metas => by unfold opPrecond; infer_instance
  | .rollback => by unfold opPrecond; infer_instance
  | .start_merge ids => by unfold opPrecond; infer_instance
  | .end_merge metas e => by unfold opPrecond; infer_instance

/-- The freshness preconditions hold at every step of an operation
sequence run from a given state. -/
def PrecondsHold : SegmentRegisters → List Op → Prop
  | _, [] => True
  | s, op :: ops => opPrecond s op ∧ PrecondsHold (applyOp s op) ops

instance instDecidablePrecondsHold :
    (s : SegmentRegisters) → (ops : List Op) → Decidable (PrecondsHold s ops)
  | _, [] => .isTrue True.intro
  | s, op :: ops =>
    @instDecidableAnd _ _ (instDecidableOpPrecond s op)
      (instDecidablePrecondsHold (applyOp s op) ops)

/-! ## Codec lemmas -/

@[simp] theorem length_valBits (w x : Nat) : (valBits w x).length = w := by
  simp [valBits]

theorem valBits_succ (w x : Nat) :
    valBits (w + 1) x = x.testBit 0 :: valBits w (x / 2) := by
  unfold valBits
  rw [List.range_succ_eq_map, List.map_cons, List.map_map]
  congr 1
  apply List.map_congr_left
  intro i _
  simp [Function.comp, Nat.testBit_succ]

theorem mod_two_pow_succ (x w : Nat) :
    x % 2 ^ (w + 1) = x % 2 + 2 * (x / 2 % 2 ^ w) := by
  have h3 : 2 ^ (w + 1) = 2 * 2 ^ w := by ring
  rw [h3]
  have h1 : x % (2 * 2 ^ w) / 2 = x / 2 % 2 ^ w := Nat.mod_mul_right_div_self x 2 (2 ^ w)
  have h2 : x % (2 * 2 ^ w) % 2 = x % 2 := Nat.mod_mod_of_dvd x ⟨2 ^ w, rfl⟩
  have h4 := Nat.div_add_mod (x % (2 * 2 ^ w)) 2
  omega

theorem bitsValue_valBits (w x : Nat) : bitsValue (valBits w x) = x % 2 ^ w := by
  induction w generalizing x with
  | zero => simp [valBits, bitsValue, Nat.mod_one]
  | succ w ih =>
    rw [valBits_succ, bitsValue, ih, mod_two_pow_succ]
    have : (if x.testBit 0 then 1 else 0) = x % 2 := by
      rcases Nat.mod_two_eq_zero_or_one x with h | h <;>
        simp [Nat.testBit_zero, h]
    omega

theorem valBits_bitsValue (bs : List Bool) (w : Nat) (h : bs.length ≤ w) :
    valBits w (bitsValue bs) = bs ++ List.replicate (w - bs.length) false := by
  induction bs generalizing w with
  | nil =>
    simp only [List.nil_append, List.length_nil, Nat.sub_zero]
    have h0 : bitsValue [] = 0 := rfl
    rw [h0]
    unfold valBits
    have hz : List.map (Nat.testBit 0) (List.range w)
        = List.map (fun _ => false) (List.range w) :=
      List.map_congr_left (fun i _ => Nat.zero_testBit i)
    rw [hz, List.map_const', List.length_range]
  | cons b bs ih =>
    cases w with
    | zero => simp at h
    | succ w =>
      have hlen : bs.length ≤ w := by simpa using h
      have hval : bitsValue (b :: bs) = (if b then 1 else 0) + 2 * bitsValue bs := rfl
      have hbit : (bitsValue (b :: bs)).testBit 0 = b := by
        rw [hval]; cases b <;> simp [Nat.testBit_zero]
      have hdiv : bitsValue (b :: bs) / 2 = bitsValue bs := by
        rw [hval]
        cases b
        · simp
        · simp only [if_pos trivial]
          omega
      rw [valBits_succ, hbit, hdiv, ih _ hlen]
      simp [List.length_cons, Nat.succ_sub_succ]

theorem packBits_cons (w : Nat) (v : Nat) (vs : List Nat) :
    packBits w (v :: vs) = valBits w v ++ packBits w vs := by
  simp [packBits]

@[simp] theorem length_packBits (w : Nat) (vals : List Nat) :
    (packBits w vals).length = vals.length * w := by
  induction vals with
  | nil => simp [packBits]
  | cons v vs ih => rw [packBits_cons]; simp [ih, Nat.succ_mul]; omega

theorem unpack_pack (w : Nat) (vals : List Nat) (extra : List Bool)
    (h : ∀ v ∈ vals, v < 2 ^ w) :
    unpackBits w vals.length (packBits w vals ++ extra) = vals := by
  induction vals generalizing extra with
  | nil => rfl
  | cons v vs ih =>
    rw [packBits_cons, List.append_assoc, List.length_cons]
    show bitsValue _ :: unpackBits w vs.length _ = _
    rw [List.take_left' (length_valBits w v), List.drop_left' (length_valBits w v),
      bitsValue_valBits, Nat.mod_eq_of_lt (h v (List.mem_cons_self v vs)),
      ih extra (fun x hx => h x (List.mem_cons_of_mem v hx))]

@[simp] theorem bitsToBytes_nil : bitsToBytes [] = [] := by
  rw [bitsToBytes]

theorem bitsToBytes_cons (b : Bool) (bs : List Bool) :
    bitsToBytes (b :: bs) =
      bitsValue ((b :: bs).take 8) :: bitsToBytes ((b :: bs).drop 8) := by
  rw [bitsToBytes]

@[simp] theorem bytesToBits_nil : bytesToBits [] = [] := rfl

theorem bytesToBits_cons (v : Nat) (l : List Nat) :
    bytesToBits (v :: l) = valBits 8 v ++ bytesToBits l := by
  simp [bytesToBits]

theorem length_bitsToBytes (bits : List Bool) :
    (bitsToBytes bits).length = (bits.length + 7) / 8 := by
  induction bits using bitsToBytes.induct with
  | case1 => simp
  | case2 b bs ih =>
    rw [bitsToBytes_cons, List.length_cons, ih]
    simp only [List.length_drop, List.length_cons]
    omega

theorem take_bytesToBits_bitsToBytes (bits : List Bool) :
    (bytesToBits (bitsToBytes bits)).take bits.length = bits := by
  induction bits using bitsToBytes.induct with
  | case1 => simp
  | case2 b bs ih =>
    rw [bitsToBytes_cons, bytesToBits_cons]
    have htk : ((b :: bs).take 8).length ≤ 8 := by
      simp [List.length_take]
    rw [valBits_bitsValue _ _ htk]
    by_cases h8 : (b :: bs).length ≤ 8
    · have hchunk : (b :: bs).take 8 = b :: bs := List.take_of_length_le h8
      have htail : (b :: bs).drop 8 = [] := List.drop_eq_nil_of_le h8
      rw [hchunk, htail, bitsToBytes_nil, bytesToBits_nil, List.append_nil]
      exact List.take_left' rfl
    · have h8' : 8 < (b :: bs).length := by omega
      have hchunklen : ((b :: bs).take 8).length = 8 :=
        List.length_take_of_le (le_of_lt h8')
      rw [hchunklen]
      simp only [Nat.sub_self, List.replicate_zero, List.append_nil]
      rw [List.take_append_eq_append_take, hchunklen,
        List.take_of_length_le (by rw [hchunklen]; omega)]
      have hdl : ((b :: bs).drop 8).length = (b :: bs).length - 8 := by
        simp [List.length_drop]
      rw [hdl] at ih
      rw [ih]
      exact List.take_append_drop 8 (b :: bs)

theorem le_maxList {l : List Nat} {x : Nat} (h : x ∈ l) : x ≤ maxList l := by
  induction l with
  | nil => cases h
  | cons y ys ih =>
    rcases List.mem_cons.mp h with rfl | h'
    · exact le_max_left _ _
    · exact le_trans (ih h') (le_max_right _ _)

theorem maxList_lt {l : List Nat} {c : Nat} (hc : 0 < c) (h : ∀ x ∈ l, x < c) :
    maxList l < c := by
  induction l with
  | nil => simpa [maxList]
  | cons y ys ih =>
    have : maxList (y :: ys) = max y (maxList ys) := rfl
    rw [this, Nat.max_lt]
    exact ⟨h y (List.mem_cons_self y ys),
      ih (fun x hx => h x (List.mem_cons_of_mem y hx))⟩

@[simp] theorem length_deltas (prev : Nat) (l : List Nat) :
    (deltas prev l).length = l.length := by
  induction l generalizing prev with
  | nil => rfl
  | cons v vs ih => simp [deltas, ih]

theorem deltas_lt {c : Nat} (prev : Nat) (l : List Nat) (h : ∀ v ∈ l, v < c) :
    ∀ d ∈ deltas prev l, d < c := by
  induction l generalizing prev with
  | nil => intro d hd; cases hd
  | cons v vs ih =>
    intro d hd
    rcases List.mem_cons.mp hd with rfl | hd'
    · exact lt_of_le_of_lt (Nat.sub_le v prev) (h v (List.mem_cons_self v vs))
    · exact ih v (fun x hx => h x (List.mem_cons_of_mem v hx)) d hd'

theorem undeltas_deltas {prev : Nat} {l : List Nat}
    (h : List.Chain (· ≤ ·) prev l) : undeltas prev (deltas prev l) = l := by
  induction l generalizing prev with
  | nil => rfl
  | cons v vs ih =>
    rw [List.chain_cons] at h
    show (prev + (v - prev)) :: undeltas (prev + (v - prev)) (deltas v vs) = v :: vs
    rw [Nat.add_sub_cancel' h.1]
    exact congrArg (v :: ·) (ih h.2)

theorem header_packed_length_le (l : List Nat)
    (hlen : l.length = NUM_DOCS_PER_BLOCK) (h32 : ∀ x ∈ l, x < 2 ^ 32) :
    (Nat.size (maxList l) :: bitsToBytes (packBits (Nat.size (maxList l)) l)).length
      ≤ COMPRESSED_BLOCK_MAX_SIZE := by
  have hb : Nat.size (maxList l) ≤ 32 :=
    Nat.size_le.mpr (maxList_lt (by norm_num) h32)
  rw [List.length_cons, length_bitsToBytes, length_packBits, hlen]
  have hmul : NUM_DOCS_PER_BLOCK * Nat.size (maxList l) + 7
      ≤ NUM_DOCS_PER_BLOCK * 32 + 7 := by
    have := Nat.mul_le_mul_left NUM_DOCS_PER_BLOCK hb
    omega
  have hdiv := Nat.div_le_div_right (c := 8) hmul
  have : (NUM_DOCS_PER_BLOCK * 32 + 7) / 8 = 512 := by
    simp [NUM_DOCS_PER_BLOCK]
  rw [this] at hdiv
  simp [COMPRESSED_BLOCK_MAX_SIZE, NUM_DOCS_PER_BLOCK]
  omega

/-- C7: sorted round-trip — for every block of exactly `NUM_DOCS_PER_BLOCK`
non-decreasing u32 values and every `offset ≤ v[0]`, decoding the bytes
produced by the sorted encoder yields exactly the original block, and the
decoder consumes exactly the bytes the encoder produced: the remainder it
returns is exactly the input that followed the encoded block. -/
theorem C7_sorted_roundtrip (vals : List Nat) (offset : Nat) (rest : List Nat)
    (hlen : vals.length = NUM_DOCS_PER_BLOCK)
    (hsorted : vals.Chain' (· ≤ ·))
    (hoff : offset ≤ vals.headD 0)
    (h32 : ∀ v ∈ vals, v < 2 ^ 32) :
    uncompress_sorted (compress_sorted vals offset ++ rest) offset = (vals, rest) := by
  have hchain : List.Chain (· ≤ ·) offset vals := by
    cases vals with
    | nil => simp [NUM_DOCS_PER_BLOCK] at hlen
    | cons v vs =>
      have h1 : offset ≤ v := by simpa using hoff
      exact List.chain_cons.mpr ⟨h1, hsorted⟩
  have hdlt : ∀ d ∈ deltas offset vals,
      d < 2 ^ Nat.size (maxList (deltas offset vals)) :=
    fun d hd => lt_of_le_of_lt (le_maxList hd) (Nat.lt_size_self _)
  have hdslen : (deltas offset vals).length = NUM_DOCS_PER_BLOCK := by
    rw [length_deltas, hlen]
  have hcomp : compress_sorted vals offset
      = Nat.size (maxList (deltas offset vals))
        :: bitsToBytes (packBits (Nat.size (maxList (deltas offset vals)))
            (deltas offset vals)) := rfl
  set b := Nat.size (maxList (deltas offset vals)) with hbdef
  set bytes := bitsToBytes (packBits b (deltas offset vals)) with hbytes
  have hblen : bytes.length = (NUM_DOCS_PER_BLOCK * b + 7) / 8 := by
    rw [hbytes, length_bitsToBytes, length_packBits, hdslen]
  rw [hcomp, List.cons_append]
  show uncompress_sorted (b :: (bytes ++ rest)) offset = (vals, rest)
  unfold uncompress_sorted
  simp only [List.take_left' hblen, List.drop_left' hblen]
  have hsplit : bytesToBits bytes
      = packBits b (deltas offset vals)
        ++ (bytesToBits bytes).drop (packBits b (deltas offset vals)).length := by
    conv_lhs =>
      rw [← List.take_append_drop (packBits b (deltas offset vals)).length
        (bytesToBits bytes)]
    rw [hbytes, take_bytesToBits_bitsToBytes]
  rw [hsplit]
  have hunpack : unpackBits b NUM_DOCS_PER_BLOCK
      (packBits b (deltas offset vals)
        ++ (bytesToBits bytes).drop (packBits b (deltas offset vals)).length)
      = deltas offset vals := by
    rw [← hdslen]
    exact unpack_pack b (deltas offset vals) _ hdlt
  rw [hunpack, undeltas_deltas hchain]

set_option maxRecDepth 4000 in
/-- C7 witness: the round-trip theorem applied to a concrete block of 128
values with a nonempty trailing stream. -/
theorem C7_sorted_roundtrip_witness :
    uncompress_sorted (compress_sorted (List.replicate 128 5) 3 ++ [9]) 3
      = (List.replicate 128 5, [9]) :=
  C7_sorted_roundtrip (List.replicate 128 5) 3 [9]
    (by decide) (List.chain'_replicate_of_rel 128 (le_refl 5)) (by decide) (by decide)

/-- C8: compactness bound — for every block of exactly
`NUM_DOCS_PER_BLOCK` u32 values, both encoders report a compressed size
of at most `4 * B + 1 = COMPRESSED_BLOCK_MAX_SIZE` bytes, so the prefix
`self.output[..compressed_size]` of the encoder's fixed
`COMPRESSED_BLOCK_MAX_SIZE`-byte buffer is in bounds. -/
theorem C8_compactness (vals : List Nat) (offset : Nat)
    (hlen : vals.length = NUM_DOCS_PER_BLOCK)
    (h32 : ∀ v ∈ vals, v < 2 ^ 32) :
    compress_block_sorted_len vals offset ≤ COMPRESSED_BLOCK_MAX_SIZE ∧
    compress_block_unsorted_len vals ≤ COMPRESSED_BLOCK_MAX_SIZE := by
  constructor
  · have hd := deltas_lt offset vals h32
    have hlend : (deltas offset vals).length = NUM_DOCS_PER_BLOCK := by
      rw [length_deltas, hlen]
    exact header_packed_length_le (deltas offset vals) hlend hd
  · exact header_packed_length_le vals hlen h32

set_option maxRecDepth 4000 in
/-- C8 witness: the compactness bound at a concrete block of 128 values. -/
theorem C8_compactness_witness :
    compress_block_sorted_len (List.replicate 128 5) 3 ≤ COMPRESSED_BLOCK_MAX_SIZE ∧
    compress_block_unsorted_len (List.replicate 128 5) ≤ COMPRESSED_BLOCK_MAX_SIZE :=
  C8_compactness (List.replicate 128 5) 3 (by decide) (by decide)

/-! ## Segment register lemmas -/

theorem find?_filter_eq {α : Type} (p q : α → Bool) (l : List α)
    (h : ∀ x, p x = true → q x = true) :
    (l.filter q).find? p = l.find? p := by
  induction l with
  | nil => rfl
  | cons x xs ih =>
    by_cases hp : p x
    · rw [List.filter_cons, if_pos (h x hp),
        List.find?_cons_of_pos _ hp, List.find?_cons_of_pos _ hp]
    · by_cases hq : q x
      · rw [List.filter_cons, if_pos hq, List.find?_cons_of_neg _ hp,
          List.find?_cons_of_neg _ hp, ih]
      · rw [List.filter_cons, if_neg hq, List.find?_cons_of_neg _ hp, ih]

namespace SegmentRegister

theorem segment_entry_id {r : SegmentRegister} {id : SegmentId} {e : SegmentEntry}
    (h : r.segment_entry id = some e) : e.meta.id = id := by
  have := List.find?_some h
  simpa using this

@[simp] theorem segment_entry_add (r : SegmentRegister) (e : SegmentEntry)
    (id : SegmentId) :
    (r.add_segment_entry e).segment_entry id =
      if e.meta.id = id then some e else r.segment_entry id := by
  unfold add_segment_entry segment_entry
  rw [List.find?_append]
  by_cases hid : e.meta.id = id
  · subst hid
    have h1 : (List.filter (fun e2 => e2.meta.id != e.meta.id) r).find?
        (fun x => x.meta.id == e.meta.id) = none := by
      rw [List.find?_eq_none]
      intro x hx
      have h2 := (List.mem_filter.mp hx).2
      simp only [bne_iff_ne, ne_eq, decide_eq_true_eq] at h2
      simp [h2]
    rw [h1]
    simp
  · have h2 : List.find? (fun x => x.meta.id == id) [e] = none := by
      simp [hid]
    rw [find?_filter_eq _ _ _ (fun x hpx => by
      simp only [beq_iff_eq] at hpx
      simp [bne_iff_ne, hpx]
      exact fun hcon => hid hcon.symm), h2]
    simp [hid]

@[simp] theorem segment_entry_remove (r : SegmentRegister) (rid id : SegmentId) :
    (r.remove_segment rid).segment_entry id =
      if id = rid then none else r.segment_entry id := by
  unfold remove_segment segment_entry
  by_cases hid : id = rid
  · subst hid
    rw [if_pos rfl, List.find?_eq_none]
    intro x hx
    have h2 := (List.mem_filter.mp hx).2
    simp only [bne_iff_ne, ne_eq, decide_eq_true_eq] at h2
    simp [h2]
  · rw [if_neg hid]
    apply find?_filter_eq
    intro x hpx
    simp only [beq_iff_eq] at hpx
    simp [bne_iff_ne, hpx, hid]

theorem mem_segment_ids_iff {r : SegmentRegister} {id : SegmentId} :
    id ∈ r.segment_ids ↔ (r.segment_entry id).isSome := by
  unfold segment_ids segment_entry
  rw [List.find?_isSome]
  constructor
  · intro h
    rcases List.mem_map.mp h with ⟨e, he, heq⟩
    exact ⟨e, he, by simp [heq]⟩
  · rintro ⟨e, he, hp⟩
    exact List.mem_map.mpr ⟨e, he, by simpa using hp⟩

theorem contains_all_iff {r : SegmentRegister} {ids : List SegmentId} :
    r.contains_all ids = true ↔ ∀ id ∈ ids, (r.segment_entry id).isSome := by
  unfold contains_all contains
  rw [List.all_eq_true]

theorem segment_entry_foldl_remove (ids : List SegmentId) (r : SegmentRegister)
    (id : SegmentId) :
    (ids.foldl remove_segment r).segment_entry id =
      if id ∈ ids then none else r.segment_entry id := by
  induction ids generalizing r with
  | nil => simp
  | cons i is ih =>
    rw [List.foldl_cons, ih]
    by_cases hmem : id ∈ is
    · simp [hmem]
    · rw [if_neg hmem, segment_entry_remove]
      by_cases hii : id = i
      · simp [hii]
      · simp [hii, hmem]

theorem segment_entry_start_merge (r : SegmentRegister) (mid id : SegmentId) :
    (r.start_merge mid).segment_entry id =
      (r.segment_entry id).map
        (fun e => if e.meta.id = mid then ⟨e.meta, .InMerge⟩ else e) := by
  unfold start_merge segment_entry
  induction r with
  | nil => rfl
  | cons x xs ih =>
    rw [List.map_cons]
    have hfx : ((if x.meta.id == mid then
        (⟨x.meta, .InMerge⟩ : SegmentEntry) else x)).meta.id = x.meta.id := by
      by_cases h : x.meta.id = mid <;> simp [h]
    by_cases hp : x.meta.id = id
    · have e1 : ((if x.meta.id == mid then
          (⟨x.meta, .InMerge⟩ : SegmentEntry) else x).meta.id == id) = true := by
        rw [hfx]; simpa using hp
      have e2 : (x.meta.id == id) = true := by simpa using hp
      simp only [List.find?_cons, e1, e2, Option.map_some']
      by_cases h : x.meta.id = mid <;> simp [h]
    · have e1 : ((if x.meta.id == mid then
          (⟨x.meta, .InMerge⟩ : SegmentEntry) else x).meta.id == id) = false := by
        rw [hfx]; simpa using hp
      have e2 : (x.meta.id == id) = false := by simpa using hp
      simp only [List.find?_cons, e1, e2]
      exact ih

theorem segment_entry_foldl_start_merge (ids : List SegmentId)
    (r : SegmentRegister) (id : SegmentId) :
    ((ids.foldl start_merge r).segment_entry id) =
      (r.segment_entry id).map
        (fun e => if id ∈ ids then ⟨e.meta, .InMerge⟩ else e) := by
  induction ids generalizing r with
  | nil => simp
  | cons i is ih =>
    rw [List.foldl_cons, ih, segment_entry_start_merge, Option.map_map]
    cases hentry : r.segment_entry id with
    | none => rfl
    | some e =>
      have hid := segment_entry_id hentry
      simp only [Option.map_some']
      by_cases h1 : id = i
      · subst h1
        by_cases h2 : id ∈ is <;>
          simp [Function.comp, hid, List.mem_cons, h2]
      · by_cases h2 : id ∈ is <;>
          simp [Function.comp, hid, h1, List.mem_cons, h2]

theorem segment_entry_foldl_add (entries : List SegmentEntry)
    (r : SegmentRegister) (id : SegmentId) :
    ((entries.foldl add_segment_entry r).segment_entry id) =
      (entries.reverse.find? (fun e => e.meta.id == id)).or (r.segment_entry id) := by
  induction entries generalizing r with
  | nil => simp
  | cons e es ih =>
    rw [List.foldl_cons, ih, List.reverse_cons, List.find?_append, segment_entry_add]
    by_cases h : e.meta.id = id
    · rw [if_pos h]
      have h1 : List.find? (fun x => x.meta.id == id) [e] = some e := by simp [h]
      rw [h1, Option.or_assoc]
      congr 1
    · rw [if_neg h]
      have h1 : List.find? (fun x => x.meta.id == id) [e] = none := by simp [h]
      rw [h1, Option.or_none]

theorem mem_ids_add {r : SegmentRegister} {e : SegmentEntry} {id : SegmentId} :
    id ∈ (r.add_segment_entry e).segment_ids ↔
      e.meta.id = id ∨ id ∈ r.segment_ids := by
  rw [mem_segment_ids_iff, segment_entry_add, mem_segment_ids_iff]
  by_cases h : e.meta.id = id <;> simp [h]

theorem mem_ids_foldl_remove {ids : List SegmentId} {r : SegmentRegister}
    {id : SegmentId} :
    id ∈ (ids.foldl remove_segment r).segment_ids ↔
      id ∉ ids ∧ id ∈ r.segment_ids := by
  rw [mem_segment_ids_iff, segment_entry_foldl_remove, mem_segment_ids_iff]
  by_cases h : id ∈ ids <;> simp [h]

theorem mem_ids_foldl_start_merge {ids : List SegmentId} {r : SegmentRegister}
    {id : SegmentId} :
    id ∈ (ids.foldl start_merge r).segment_ids ↔ id ∈ r.segment_ids := by
  rw [mem_segment_ids_iff, segment_entry_foldl_start_merge, mem_segment_ids_iff]
  cases r.segment_entry id <;> simp

theorem mem_ids_new {metas : List SegmentMeta} {id : SegmentId} :
    id ∈ (SegmentRegister.new metas).segment_ids ↔ ∃ m ∈ metas, m.id = id := by
  unfold new segment_ids
  rw [List.map_map]
  constructor
  · intro h
    rcases List.mem_map.mp h with ⟨m, hm, heq⟩
    exact ⟨m, hm, heq⟩
  · rintro ⟨m, hm, heq⟩
    exact List.mem_map.mpr ⟨m, hm, heq⟩

theorem contains_all_mem {r : SegmentRegister} {ids : List SegmentId}
    (h : r.contains_all ids = true) {id : SegmentId} (hid : id ∈ ids) :
    id ∈ r.segment_ids :=
  mem_segment_ids_iff.mpr (contains_all_iff.mp h id hid)

end SegmentRegister

theorem mem_writingInsert {x id : SegmentId} {w : List SegmentId} :
    x ∈ writingInsert id w ↔ x = id ∨ x ∈ w := by
  unfold writingInsert
  by_cases h : id ∈ w
  · simp only [if_pos h]
    constructor
    · exact Or.inr
    · rintro (rfl | hx)
      · exact h
      · exact hx
  · simp [if_neg h]

theorem mem_writingErase {x id : SegmentId} {w : List SegmentId} :
    x ∈ writingErase id w ↔ x ∈ w ∧ x ≠ id := by
  simp [writingErase, List.mem_filter]

/-! ## Segment manager lemmas and claims -/

namespace SegmentManager

/-- C2: atomicity of `end_merge` — when the input identifiers are neither
all in the uncommitted register nor all in the committed register, the
whole state is unchanged; when they are all in the uncommitted register
(checked first), exactly they are removed from it and the output entry
inserted there, the committed register and writing set untouched; when
they are all in the committed register only, symmetrically. -/
theorem C2_end_merge_atomic (s : SegmentRegisters) (metas : List SegmentMeta)
    (e : SegmentEntry) :
    (s.uncommitted.contains_all (metas.map SegmentMeta.id) = false →
      s.committed.contains_all (metas.map SegmentMeta.id) = false →
      end_merge s metas e = s) ∧
    (s.uncommitted.contains_all (metas.map SegmentMeta.id) = true →
      (∀ id, (end_merge s metas e).uncommitted.segment_entry id =
        if e.meta.id = id then some e
        else if id ∈ metas.map SegmentMeta.id then none
        else s.uncommitted.segment_entry id) ∧
      (end_merge s metas e).committed = s.committed ∧
      (end_merge s metas e).writing = s.writing) ∧
    (s.uncommitted.contains_all (metas.map SegmentMeta.id) = false →
      s.committed.contains_all (metas.map SegmentMeta.id) = true →
      (∀ id, (end_merge s metas e).committed.segment_entry id =
        if e.meta.id = id then some e
        else if id ∈ metas.map SegmentMeta.id then none
        else s.committed.segment_entry id) ∧
      (end_merge s metas e).uncommitted = s.uncommitted ∧
      (end_merge s metas e).writing = s.writing) := by
  refine ⟨fun hu hc => ?_, fun hu => ?_, fun hu hc => ?_⟩
  · simp [end_merge, hu, hc]
  · have hstep : end_merge s metas e =
        { s with uncommitted :=
            ((metas.map SegmentMeta.id).foldl SegmentRegister.remove_segment
              s.uncommitted).add_segment_entry e } := by
      simp [end_merge, hu]
    rw [hstep]
    refine ⟨fun id => ?_, rfl, rfl⟩
    rw [SegmentRegister.segment_entry_add, SegmentRegister.segment_entry_foldl_remove]
  · have hstep : end_merge s metas e =
        { s with committed :=
            ((metas.map SegmentMeta.id).foldl SegmentRegister.remove_segment
              s.committed).add_segment_entry e } := by
      simp [end_merge, hu, hc]
    rw [hstep]
    refine ⟨fun id => ?_, rfl, rfl⟩
    rw [SegmentRegister.segment_entry_add, SegmentRegister.segment_entry_foldl_remove]

/-- C2 witness: the uncommitted branch of the atomicity theorem at a
concrete state — the input is removed, the merged output inserted, and
the committed register left untouched. -/
theorem C2_end_merge_atomic_witness :
    (end_merge ⟨SegmentRegister.new [⟨1, []⟩], SegmentRegister.new [⟨5, []⟩], []⟩
        [⟨1, []⟩] ⟨⟨2, []⟩, .Ready⟩).committed
      = (⟨SegmentRegister.new [⟨1, []⟩], SegmentRegister.new [⟨5, []⟩], []⟩ :
          SegmentRegisters).committed :=
  ((C2_end_merge_atomic
      ⟨SegmentRegister.new [⟨1, []⟩], SegmentRegister.new [⟨5, []⟩], []⟩
      [⟨1, []⟩] ⟨⟨2, []⟩, .Ready⟩).2.1 (by decide)).2.1

/-- C5: `start_merge` validation — if every requested identifier is in
the uncommitted register, exactly those entries become `InMerge` there
(everything else unchanged); else if every one is in the committed
register, the same happens there; otherwise the state is unchanged. -/
theorem C5_start_merge_validation (s : SegmentRegisters) (ids : List SegmentId) :
    (s.uncommitted.contains_all ids = true →
      (∀ id, (start_merge s ids).uncommitted.segment_entry id =
          (s.uncommitted.segment_entry id).map
            (fun e => if id ∈ ids then ⟨e.meta, .InMerge⟩ else e)) ∧
      (start_merge s ids).committed = s.committed ∧
      (start_merge s ids).writing = s.writing) ∧
    (s.uncommitted.contains_all ids = false →
      s.committed.contains_all ids = true →
      (∀ id, (start_merge s ids).committed.segment_entry id =
          (s.committed.segment_entry id).map
            (fun e => if id ∈ ids then ⟨e.meta, .InMerge⟩ else e)) ∧
      (start_merge s ids).uncommitted = s.uncommitted ∧
      (start_merge s ids).writing = s.writing) ∧
    (s.uncommitted.contains_all ids = false →
      s.committed.contains_all ids = false →
      start_merge s ids = s) := by
  refine ⟨fun hu => ?_, fun hu hc => ?_, fun hu hc => ?_⟩
  · have hstep : start_merge s ids =
        { s with uncommitted := ids.foldl SegmentRegister.start_merge s.uncommitted } := by
      simp [start_merge, hu]
    rw [hstep]
    exact ⟨fun id => SegmentRegister.segment_entry_foldl_start_merge ids _ id, rfl, rfl⟩
  · have hstep : start_merge s ids =
        { s with committed := ids.foldl SegmentRegister.start_merge s.committed } := by
      simp [start_merge, hu, hc]
    rw [hstep]
    exact ⟨fun id => SegmentRegister.segment_entry_foldl_start_merge ids _ id, rfl, rfl⟩
  · simp [start_merge, hu, hc]

/-- C5 witness: the uncommitted branch at a concrete state — the single
requested uncommitted segment becomes `InMerge`. -/
theorem C5_start_merge_validation_witness :
    (start_merge ⟨SegmentRegister.new [⟨4, []⟩], SegmentRegister.new [⟨9, []⟩], []⟩
        [4]).uncommitted.segment_entry 4
      = some ⟨⟨4, []⟩, .InMerge⟩ := by
  have h := ((C5_start_merge_validation
      ⟨SegmentRegister.new [⟨4, []⟩], SegmentRegister.new [⟨9, []⟩], []⟩
      [4]).1 (by decide)).1 4
  rw [h]
  decide

/-- C6: `rollback` returns exactly the identifiers that were in the
uncommitted register (order-independent, stated as a membership
equivalence), clears the uncommitted register, and leaves the committed
register and the writing set untouched. -/
theorem C6_rollback (s : SegmentRegisters) :
    (∀ id, id ∈ (rollback s).1 ↔ id ∈ s.uncommitted.segment_ids) ∧
    (rollback s).2.uncommitted = SegmentRegister.clear ∧
    (rollback s).2.committed = s.committed ∧
    (rollback s).2.writing = s.writing :=
  ⟨fun _ => Iff.rfl, rfl, rfl, rfl⟩

/-- C10: `end_merge` with an empty input list — `contains_all` of the
empty identifier set holds vacuously for the uncommitted register, which
is checked first, so the call removes nothing and unconditionally inserts
the merged output entry into the uncommitted register; the committed
register and the writing set are untouched. -/
theorem C10_end_merge_empty (s : SegmentRegisters) (e : SegmentEntry) :
    (∀ id, (end_merge s [] e).uncommitted.segment_entry id =
        if e.meta.id = id then some e else s.uncommitted.segment_entry id) ∧
    (end_merge s [] e).committed = s.committed ∧
    (end_merge s [] e).writing = s.writing := by
  refine ⟨fun id => ?_, rfl, rfl⟩
  show (s.uncommitted.add_segment_entry e).segment_entry id = _
  rw [SegmentRegister.segment_entry_add]

theorem mem_foldl_union {l : List SegmentMeta} {init : Finset String} {p : String} :
    p ∈ l.foldl (fun files m => files ∪ m.list_files.toFinset) init ↔
      p ∈ init ∨ ∃ m ∈ l, p ∈ m.list_files := by
  induction l generalizing init with
  | nil => simp
  | cons m ms ih =>
    rw [List.foldl_cons, ih]
    simp only [Finset.mem_union, List.mem_toFinset, List.mem_cons]
    constructor
    · rintro ((hp | hp) | ⟨m', hm', hp⟩)
      · exact Or.inl hp
      · exact Or.inr ⟨m, Or.inl rfl, hp⟩
      · exact Or.inr ⟨m', Or.inr hm', hp⟩
    · rintro (hp | ⟨m', (rfl | hm'), hp⟩)
      · exact Or.inl (Or.inl hp)
      · exact Or.inl (Or.inr hp)
      · exact Or.inr ⟨m', hm', hp⟩

/-- C9: `list_files` is exactly the union of the file paths of every
committed segment's metadata, every uncommitted segment's metadata and a
fresh metadata per writing identifier, together with the fixed
`META_FILEPATH`, which is a member of the result in every state. -/
theorem C9_list_files (nf : SegmentId → List String) (s : SegmentRegisters) :
    (∀ p, p ∈ list_files nf s ↔
      (p = META_FILEPATH ∨
        (∃ m ∈ s.committed.get_segments, p ∈ m.list_files) ∨
        (∃ m ∈ s.uncommitted.get_segments, p ∈ m.list_files) ∨
        (∃ id ∈ s.writing, p ∈ (SegmentMeta.new nf id).list_files))) ∧
    META_FILEPATH ∈ list_files nf s := by
  have hmem : ∀ p, p ∈ list_files nf s ↔
      (p = META_FILEPATH ∨
        (∃ m ∈ s.committed.get_segments, p ∈ m.list_files) ∨
        (∃ m ∈ s.uncommitted.get_segments, p ∈ m.list_files) ∨
        (∃ id ∈ s.writing, p ∈ (SegmentMeta.new nf id).list_files)) := by
    intro p
    unfold list_files
    rw [mem_foldl_union]
    simp only [Finset.mem_singleton, List.mem_append, List.mem_map]
    constructor
    · rintro (hp | ⟨m, (hm | hm) | ⟨id, hid, rfl⟩, hp⟩)
      · exact Or.inl hp
      · exact Or.inr (Or.inl ⟨m, hm, hp⟩)
      · exact Or.inr (Or.inr (Or.inl ⟨m, hm, hp⟩))
      · exact Or.inr (Or.inr (Or.inr ⟨id, hid, hp⟩))
    · rintro (hp | ⟨m, hm, hp⟩ | ⟨m, hm, hp⟩ | ⟨id, hid, hp⟩)
      · exact Or.inl hp
      · exact Or.inr ⟨m, Or.inl (Or.inl hm), hp⟩
      · exact Or.inr ⟨m, Or.inl (Or.inr hm), hp⟩
      · exact Or.inr ⟨SegmentMeta.new nf id, Or.inr ⟨id, hid, rfl⟩, hp⟩
  exact ⟨hmem, (hmem META_FILEPATH).mpr (Or.inl rfl)⟩

@[simp] theorem commit_entry_meta (s : SegmentRegisters) (m : SegmentMeta) :
    (commit_entry s m).meta = m := by
  unfold commit_entry
  cases segment_state s m.id <;> rfl

theorem commit_entry_state (s : SegmentRegisters) (m : SegmentMeta) :
    (commit_entry s m).state = (segment_state s m.id).getD .Ready := by
  unfold commit_entry
  cases segment_state s m.id <;> rfl

theorem commit_committed_entry (s : SegmentRegisters) (metas : List SegmentMeta)
    (id : SegmentId) :
    (commit s metas).committed.segment_entry id =
      (metas.map (commit_entry s)).reverse.find? (fun e => e.meta.id == id) := by
  show ((metas.map (commit_entry s)).foldl SegmentRegister.add_segment_entry
      SegmentRegister.clear).segment_entry id = _
  rw [SegmentRegister.segment_entry_foldl_add]
  have : SegmentRegister.clear.segment_entry id = none := rfl
  rw [this, Option.or_none]

theorem commit_entry_lookup (s : SegmentRegisters) (metas : List SegmentMeta)
    {S : SegmentId} (hmem : ∃ m ∈ metas, m.id = S) :
    ∃ e, (commit s metas).committed.segment_entry S = some e ∧
      e.state = (segment_state s S).getD .Ready := by
  rw [commit_committed_entry]
  rcases hmem with ⟨m, hm, hid⟩
  have hsome : ((metas.map (commit_entry s)).reverse.find?
      (fun e => e.meta.id == S)).isSome := by
    rw [List.find?_isSome]
    exact ⟨commit_entry s m, by
      rw [List.mem_reverse]
      exact List.mem_map.mpr ⟨m, hm, rfl⟩, by simp [hid]⟩
  rcases Option.isSome_iff_exists.mp hsome with ⟨e, he⟩
  refine ⟨e, he, ?_⟩
  have hmem2 := List.mem_of_find?_eq_some he
  rw [List.mem_reverse] at hmem2
  rcases List.mem_map.mp hmem2 with ⟨m', hm', rfl⟩
  have hid' := List.find?_some he
  simp only [commit_entry_meta, beq_iff_eq] at hid'
  rw [commit_entry_state, hid']

/-- C4 (amended): commit preserves merge state — for a segment `S` that
is `InMerge` in the committed register, or `InMerge` in the uncommitted
register and absent from the committed register, and whose metadata
occurs in the committed metadata list, the committed register after
`commit` holds an `InMerge` entry for `S`; a metadata whose identifier
was in neither register enters the committed register `Ready`; and the
uncommitted register is empty afterwards. -/
theorem C4_commit_preserves_merge_state (s : SegmentRegisters)
    (metas : List SegmentMeta) :
    (∀ S, ((∃ e, s.committed.segment_entry S = some e ∧ e.state = .InMerge) ∨
        (s.committed.segment_entry S = none ∧
          (∃ e, s.uncommitted.segment_entry S = some e ∧ e.state = .InMerge))) →
      (∃ m ∈ metas, m.id = S) →
      ∃ e, (commit s metas).committed.segment_entry S = some e ∧
        e.state = .InMerge) ∧
    (∀ S, s.committed.segment_entry S = none →
      s.uncommitted.segment_entry S = none →
      (∃ m ∈ metas, m.id = S) →
      ∃ e, (commit s metas).committed.segment_entry S = some e ∧
        e.state = .Ready) ∧
    (commit s metas).uncommitted = SegmentRegister.clear := by
  refine ⟨fun S hS hmem => ?_, fun S hcn hun hmem => ?_, rfl⟩
  · have hstate : segment_state s S = some .InMerge := by
      rcases hS with ⟨e, hce, hst⟩ | ⟨hnone, e, hue, hst⟩
      · simp [segment_state, segment_entry, hce, hst]
      · simp [segment_state, segment_entry, hnone, hue, hst]
    rcases commit_entry_lookup s metas hmem with ⟨e, he, hst⟩
    exact ⟨e, he, by rw [hst, hstate]; rfl⟩
  · have hstate : segment_state s S = none := by
      simp [segment_state, segment_entry, hcn, hun]
    rcases commit_entry_lookup s metas hmem with ⟨e, he, hst⟩
    exact ⟨e, he, by rw [hst, hstate]; rfl⟩

/-- C4 witness: a committed segment put `InMerge` by `start_merge` is
still `InMerge` in the committed register after a commit that retains its
metadata. -/
theorem C4_commit_preserves_merge_state_witness :
    ∃ e, (commit (start_merge (from_segments [⟨0, []⟩]) [0])
        [⟨0, []⟩, ⟨7, []⟩]).committed.segment_entry 0 = some e ∧
      e.state = .InMerge :=
  (C4_commit_preserves_merge_state (start_merge (from_segments [⟨0, []⟩]) [0])
      [⟨0, []⟩, ⟨7, []⟩]).1 0
    (Or.inl ⟨⟨⟨0, []⟩, .InMerge⟩, by decide, rfl⟩) ⟨⟨0, []⟩, by decide, rfl⟩

/-- C4 counterexample: the claim as stated quantifies over every manager
state; in a state where segment 0 is `InMerge` in the uncommitted
register but also present `Ready` in the committed register, commit
consults the committed register first and the resulting committed entry
is `Ready`, not `InMerge`. -/
theorem C4_counterexample :
    ((⟨[⟨⟨0, []⟩, .InMerge⟩], SegmentRegister.new [⟨0, []⟩], []⟩ :
        SegmentRegisters).uncommitted.segment_entry 0
      = some ⟨⟨0, []⟩, .InMerge⟩) ∧
    ((commit (⟨[⟨⟨0, []⟩, .InMerge⟩], SegmentRegister.new [⟨0, []⟩], []⟩ :
        SegmentRegisters) [⟨0, []⟩]).committed.segment_entry 0
      = some ⟨⟨0, []⟩, .Ready⟩) := by
  decide

theorem mem_ids_commit {s : SegmentRegisters} {metas : List SegmentMeta}
    {id : SegmentId} :
    id ∈ (commit s metas).committed.segment_ids ↔ ∃ m ∈ metas, m.id = id := by
  rw [SegmentRegister.mem_segment_ids_iff, commit_committed_entry, List.find?_isSome]
  constructor
  · rintro ⟨e, he, hp⟩
    rw [List.mem_reverse] at he
    rcases List.mem_map.mp he with ⟨m, hm, rfl⟩
    exact ⟨m, hm, by simpa using hp⟩
  · rintro ⟨m, hm, hid⟩
    exact ⟨commit_entry s m, by
      rw [List.mem_reverse]
      exact List.mem_map.mpr ⟨m, hm, rfl⟩, by simp [hid]⟩

end SegmentManager

theorem exclusive_applyOp {s : SegmentRegisters} {op : Op}
    (hex : Exclusive s) (hpre : opPrecond s op) : Exclusive (applyOp s op) := by
  obtain ⟨hex1, hex2⟩ := hex
  cases op with
  | write_segment id0 =>
    obtain ⟨hp1, hp2⟩ := hpre
    refine ⟨fun id hc => ⟨(hex1 id hc).1, fun hw => ?_⟩, fun id hu hw => ?_⟩
    · rcases mem_writingInsert.mp hw with rfl | hw'
      · exact hp1 hc
      · exact (hex1 id hc).2 hw'
    · rcases mem_writingInsert.mp hw with rfl | hw'
      · exact hp2 hu
      · exact hex2 id hu hw'
  | add_segment e =>
    refine ⟨fun id hc => ⟨fun hu => ?_, fun hw => ?_⟩, fun id hu hw => ?_⟩
    · rcases SegmentRegister.mem_ids_add.mp hu with rfl | hu'
      · exact hpre hc
      · exact (hex1 id hc).1 hu'
    · exact (hex1 id hc).2 (mem_writingErase.mp hw).1
    · rcases SegmentRegister.mem_ids_add.mp hu with rfl | hu'
      · exact absurd rfl (mem_writingErase.mp hw).2
      · exact hex2 id hu' (mem_writingErase.mp hw).1
  | commit metas =>
    refine ⟨fun id hc => ⟨fun hu => ?_, fun hw => ?_⟩, fun id hu hw => ?_⟩
    · exact absurd hu (List.not_mem_nil id)
    · rcases SegmentManager.mem_ids_commit.mp hc with ⟨m, hm, rfl⟩
      exact hpre m hm hw
    · exact absurd hu (List.not_mem_nil id)
  | rollback =>
    exact ⟨fun id hc => ⟨fun hu => absurd hu (List.not_mem_nil id), (hex1 id hc).2⟩,
      fun id hu hw => absurd hu (List.not_mem_nil id)⟩
  | start_merge ids =>
    by_cases hu : s.uncommitted.contains_all ids
    · have hstep : applyOp s (.start_merge ids) =
          { s with uncommitted := ids.foldl SegmentRegister.start_merge s.uncommitted } := by
        simp [applyOp, SegmentManager.start_merge, hu]
      rw [hstep]
      exact ⟨fun id hc =>
        ⟨fun hu' => (hex1 id hc).1 (SegmentRegister.mem_ids_foldl_start_merge.mp hu'),
          (hex1 id hc).2⟩,
        fun id hu' hw =>
          hex2 id (SegmentRegister.mem_ids_foldl_start_merge.mp hu') hw⟩
    · by_cases hcm : s.committed.contains_all ids
      · have hstep : applyOp s (.start_merge ids) =
            { s with committed := ids.foldl SegmentRegister.start_merge s.committed } := by
          simp [applyOp, SegmentManager.start_merge, hu, hcm]
        rw [hstep]
        exact ⟨fun id hc =>
          hex1 id (SegmentRegister.mem_ids_foldl_start_merge.mp hc),
          fun id hu' hw => hex2 id hu' hw⟩
      · have hstep : applyOp s (.start_merge ids) = s := by
          simp [applyOp, SegmentManager.start_merge, hu, hcm]
        rw [hstep]
        exact ⟨hex1, hex2⟩
  | end_merge metas e =>
    obtain ⟨hpw, hpc, hpu⟩ := hpre
    by_cases hu : s.uncommitted.contains_all (metas.map SegmentMeta.id)
    · have hstep : applyOp s (.end_merge metas e) =
          { s with uncommitted :=
              ((metas.map SegmentMeta.id).foldl SegmentRegister.remove_segment
                s.uncommitted).add_segment_entry e } := by
        simp [applyOp, SegmentManager.end_merge, hu]
      rw [hstep]
      refine ⟨fun id hc => ⟨fun hu' => ?_, (hex1 id hc).2⟩, fun id hu' hw => ?_⟩
      · rcases SegmentRegister.mem_ids_add.mp hu' with rfl | hu''
        · have hin : e.meta.id ∈ metas.map SegmentMeta.id := hpc hc
          exact absurd (SegmentRegister.contains_all_mem hu hin) (hex1 _ hc).1
        · exact (hex1 id hc).1 (SegmentRegister.mem_ids_foldl_remove.mp hu'').2
      · rcases SegmentRegister.mem_ids_add.mp hu' with rfl | hu''
        · exact hpw hw
        · exact hex2 id (SegmentRegister.mem_ids_foldl_remove.mp hu'').2 hw
    · by_cases hcm : s.committed.contains_all (metas.map SegmentMeta.id)
      · have hstep : applyOp s (.end_merge metas e) =
            { s with committed :=
                ((metas.map SegmentMeta.id).foldl SegmentRegister.remove_segment
                  s.committed).add_segment_entry e } := by
          simp [applyOp, SegmentManager.end_merge, hu, hcm]
        rw [hstep]
        refine ⟨fun id hc => ⟨fun hu' => ?_, fun hw => ?_⟩,
          fun id hu' hw => hex2 id hu' hw⟩
        · rcases SegmentRegister.mem_ids_add.mp hc with rfl | hc'
          · have hin : e.meta.id ∈ metas.map SegmentMeta.id := hpu hu'
            exact absurd hu'
              (hex1 _ (SegmentRegister.contains_all_mem hcm hin)).1
          · exact (hex1 id (SegmentRegister.mem_ids_foldl_remove.mp hc').2).1 hu'
        · rcases SegmentRegister.mem_ids_add.mp hc with rfl | hc'
          · exact hpw hw
          · exact (hex1 id (SegmentRegister.mem_ids_foldl_remove.mp hc').2).2 hw
      · have hstep : applyOp s (.end_merge metas e) = s := by
          simp [applyOp, SegmentManager.end_merge, hu, hcm]
        rw [hstep]
        exact ⟨hex1, hex2⟩

/-- C1 (amended): the exclusivity invariant holds at the initial states
`from_segments` and `Default`, and is preserved at every prefix of an
operation sequence provided each operation satisfies its freshness side
condition (`opPrecond`) at its point of application: `write_segment`'s
identifier is in neither register, `add_segment`'s entry identifier is
not committed, `commit`'s metadata identifiers are not in the writing
set, and `end_merge`'s output identifier is not in the writing set and
not registered except as a merge input. -/
theorem C1_exclusivity :
    (∀ metas, Exclusive (SegmentManager.from_segments metas)) ∧
    Exclusive SegmentRegisters.default ∧
    (∀ init ops k, Exclusive init → PrecondsHold init ops →
      Exclusive (runOps init (ops.take k))) := by
  refine ⟨fun metas => ⟨fun id hc => ⟨List.not_mem_nil id, List.not_mem_nil id⟩,
      fun id hu => absurd hu (List.not_mem_nil id)⟩,
    ⟨fun id hc => absurd hc (List.not_mem_nil id),
      fun id hu => absurd hu (List.not_mem_nil id)⟩, ?_⟩
  intro init ops k hex hph
  induction ops generalizing init k with
  | nil => simpa [runOps] using hex
  | cons op ops ih =>
    cases k with
    | zero => simpa [runOps] using hex
    | succ k =>
      rw [List.take_succ_cons]
      exact ih (applyOp init op) k (exclusive_applyOp hex hph.1) hph.2

/-- C1 witness: the preservation theorem run over a concrete well-formed
three-operation sequence from the `Default` state. -/
theorem C1_exclusivity_witness :
    Exclusive (runOps SegmentRegisters.default
      ([.write_segment 3, .add_segment ⟨⟨3, []⟩, .Ready⟩,
        .commit [⟨3, []⟩]].take 3)) :=
  C1_exclusivity.2.2 SegmentRegisters.default
    [.write_segment 3, .add_segment ⟨⟨3, []⟩, .Ready⟩, .commit [⟨3, []⟩]] 3
    (by decide) (by decide)

/-- C1 counterexample: the claim as stated quantifies over every
operation sequence; `write_segment 0` applied to
`from_segments [meta 0]` puts identifier 0 in both the committed register
and the writing set, violating exclusivity. -/
theorem C1_counterexample :
    ¬ Exclusive (runOps (SegmentManager.from_segments [⟨0, []⟩])
      [.write_segment 0]) := by
  decide

/-- C3 (amended): among the non-commit operations, `write_segment`,
`add_segment`, `rollback` and `start_merge` never put an identifier into
the committed register that was not already there; `end_merge` adds at
most its merged output's identifier (it does insert the output into the
committed register when all inputs are committed). -/
theorem C3_only_commit_adds_committed (s : SegmentRegisters) :
    (∀ id0 id, id ∈ (SegmentManager.write_segment s id0).committed.segment_ids →
      id ∈ s.committed.segment_ids) ∧
    (∀ e id, id ∈ (SegmentManager.add_segment s e).committed.segment_ids →
      id ∈ s.committed.segment_ids) ∧
    (∀ id, id ∈ (SegmentManager.rollback s).2.committed.segment_ids →
      id ∈ s.committed.segment_ids) ∧
    (∀ ids id, id ∈ (SegmentManager.start_merge s ids).committed.segment_ids →
      id ∈ s.committed.segment_ids) ∧
    (∀ metas e id,
      id ∈ (SegmentManager.end_merge s metas e).committed.segment_ids →
      id ∈ s.committed.segment_ids ∨ id = e.meta.id) := by
  refine ⟨fun id0 id h => h, fun e id h => h, fun id h => h,
    fun ids id h => ?_, fun metas e id h => ?_⟩
  · by_cases hu : s.uncommitted.contains_all ids
    · have hstep : SegmentManager.start_merge s ids =
          { s with uncommitted := ids.foldl SegmentRegister.start_merge s.uncommitted } := by
        simp [SegmentManager.start_merge, hu]
      rw [hstep] at h
      exact h
    · by_cases hcm : s.committed.contains_all ids
      · have hstep : SegmentManager.start_merge s ids =
            { s with committed := ids.foldl SegmentRegister.start_merge s.committed } := by
          simp [SegmentManager.start_merge, hu, hcm]
        rw [hstep] at h
        exact SegmentRegister.mem_ids_foldl_start_merge.mp h
      · have hstep : SegmentManager.start_merge s ids = s := by
          simp [SegmentManager.start_merge, hu, hcm]
        rw [hstep] at h
        exact h
  · by_cases hu : s.uncommitted.contains_all (metas.map SegmentMeta.id)
    · have hstep : SegmentManager.end_merge s metas e =
          { s with uncommitted :=
              ((metas.map SegmentMeta.id).foldl SegmentRegister.remove_segment
                s.uncommitted).add_segment_entry e } := by
        simp [SegmentManager.end_merge, hu]
      rw [hstep] at h
      exact Or.inl h
    · by_cases hcm : s.committed.contains_all (metas.map SegmentMeta.id)
      · have hstep : SegmentManager.end_merge s metas e =
            { s with committed :=
                ((metas.map SegmentMeta.id).foldl SegmentRegister.remove_segment
                  s.committed).add_segment_entry e } := by
          simp [SegmentManager.end_merge, hu, hcm]
        rw [hstep] at h
        rcases SegmentRegister.mem_ids_add.mp h with rfl | h'
        · exact Or.inr rfl
        · exact Or.inl (SegmentRegister.mem_ids_foldl_remove.mp h').2
      · have hstep : SegmentManager.end_merge s metas e = s := by
          simp [SegmentManager.end_merge, hu, hcm]
        rw [hstep] at h
        exact Or.inl h

/-- C3 witness: the `end_merge` conjunct of the amended theorem at a
concrete state where the merge output enters the committed register. -/
theorem C3_only_commit_adds_committed_witness :
    2 ∈ (SegmentManager.from_segments [⟨1, []⟩]).committed.segment_ids ∨
      (2 : Nat) = 2 :=
  (C3_only_commit_adds_committed (SegmentManager.from_segments [⟨1, []⟩])).2.2.2.2
    [⟨1, []⟩] ⟨⟨2, []⟩, .Ready⟩ 2 (by decide)

/-- C3 counterexample: `end_merge` — an operation other than `commit` —
inserts the merged output's identifier 1 into the committed register,
where it was not present before. -/
theorem C3_counterexample :
    1 ∈ (SegmentManager.end_merge (SegmentManager.from_segments [⟨0, []⟩])
        [⟨0, []⟩] ⟨⟨1, []⟩, .Ready⟩).committed.segment_ids ∧
    1 ∉ (SegmentManager.from_segments [⟨0, []⟩]).committed.segment_ids := by
  decide

end Tantivy
